import Mathlib

/-!
Verification of the alloc-feature container codecs of a compact binary
serialization library (`src/features/impl_alloc.rs`).

The embedding models:
  * the decoder session state (remaining input, remaining decode budget,
    allocator capacity),
  * the external decoder capabilities (`decode_slice_len`,
    `claim_container_read`, `unclaim_bytes_read`) and the fallible
    allocator, which live outside the translated file and are therefore
    modelled from the spec,
  * each container codec of the source file as a Lean function over that
    state, mirroring the source's order of operations (length prefix,
    budget claim, reservation, guarded element loop).

Machine bytes on the wire are modelled as natural numbers; the external
variable-width length encoding (out of scope in the spec) is abstracted
as a single wire token carrying the count, matching the spec's concrete
scenario where small counts occupy a single byte.
-/

namespace Bincode

/-- Wire atoms: the external byte/token alphabet, modelled as naturals. -/
abbrev Byte := Nat

/-- Modelled from the spec (error taxonomy, consumed externally): the
out-of-memory diagnostic distinguishes growing a reserved collection
(`try_reserve`) from allocating a single boxed/shared value (`alloc`). -/
inductive OOMKind where
  | tryReserve
  | alloc
  deriving DecidableEq, Repr

/-- Modelled from the spec (error taxonomy, consumed externally):
budget-exceeded (size limit), out-of-memory, malformed text, and generic
structural failure (`unexpectedEnd` / `other`). -/
inductive DecodeError where
  | limitExceeded
  | outOfMemory (kind : OOMKind)
  | utf8
  | unexpectedEnd
  | other (code : Nat)
  deriving DecidableEq, Repr

/-- Modelled from the spec: encode-side error (writer reservation failure). -/
inductive EncodeError where
  | outOfMemory
  deriving DecidableEq, Repr

/-- Decoder session state: remaining input tokens, remaining decode budget
(bytes still claimable), and allocator capacity (a reservation of more
bytes than `mem` fails; `mem` is a capacity bound, not a consumable). -/
structure DecoderState where
  input : List Byte
  budget : Nat
  mem : Nat
  deriving DecidableEq, Repr

/-- Result of a decode step: success with a value and the successor state,
a recoverable error, or a process abort (infallible allocation failing). -/
inductive DResult (α : Type) where
  | ok (a : α) (s : DecoderState)
  | err (e : DecodeError)
  | abort
  deriving DecidableEq, Repr

/-- Modelled from the spec: the external length-reading primitive produces a
non-negative element count from the input stream; one wire token carries
the count. -/
def decode_slice_len (s : DecoderState) : DResult Nat :=
  match s.input with
  | [] => .err .unexpectedEnd
  | n :: rest => .ok n { s with input := rest }

/-- Modelled from the spec: the external length-writing primitive emits the
count as a single wire token. -/
def encode_slice_len (len : Nat) : List Byte := [len]

/-- Modelled from the spec: `claim_container_read` debits
`len * elemSize` from the remaining budget; fails with a size-limit error
if this would go negative, and performs no allocation. -/
def claim_container_read (elemSize len : Nat) (s : DecoderState) :
    DResult Unit :=
  if len * elemSize ≤ s.budget then
    .ok () { s with budget := s.budget - len * elemSize }
  else
    .err .limitExceeded

/-- Modelled from the spec: `unclaim_bytes_read` credits the budget back,
called once per element immediately before that element's decode. -/
def unclaim_bytes_read (n : Nat) (s : DecoderState) : DecoderState :=
  { s with budget := s.budget + n }

/-- Modelled from the spec: the fallible allocator adapter. A reservation of
`bytes` succeeds exactly when it fits the allocator capacity; it consumes
nothing (capacity is a bound on a single reservation). -/
def try_reserve (bytes : Nat) (s : DecoderState) : Bool :=
  bytes ≤ s.mem

/-- An element codec, abstracting `T : Decode + Encode`: its in-memory
worst-case size (`size_of::<T>`), its decoder, and the bytes its encoder
contributes to the wire. -/
structure Codec (α : Type) where
  size : Nat
  decode : DecoderState → DResult α
  encBytes : α → List Byte

/-- Modelled from the spec: the primitive single-byte element codec (`u8`),
assumed correct and used only as an example element type. It reads one
wire token and touches neither budget nor allocator. -/
def u8Codec : Codec Nat where
  size := 1
  decode := fun s =>
    match s.input with
    | [] => .err .unexpectedEnd
    | b :: rest => .ok b { s with input := rest }
  encBytes := fun b => [b]

/-! ## Growable output writer (`VecWriter`) -/

/-- The growable byte store backing `encode_to_vec` (source `VecWriter`). -/
structure VecWriter where
  inner : List Byte
  deriving DecidableEq, Repr

/-- Embeds `VecWriter::write`: reserve `bytes.len()` additional capacity
(failure surfaces as out-of-memory with the buffer untouched, mirroring
the early `?` return), then append exactly the requested bytes. `mem` is
the allocator capacity of the encode session. -/
def VecWriter.write (mem : Nat) (w : VecWriter) (bytes : List Byte) :
    VecWriter × Option EncodeError :=
  if bytes.length ≤ mem then
    (⟨w.inner ++ bytes⟩, none)
  else
    (w, some .outOfMemory)

/-! ## Pointer wrappers -/

/-- The unique-pointer wrapper (`Box<T>`): a heap cell holding one value. -/
structure RBox (α : Type) where
  val : α
  deriving DecidableEq, Repr

/-- The sole-thread shared wrapper (`Rc<T>`). -/
structure RRc (α : Type) where
  val : α
  deriving DecidableEq, Repr

/-- The cross-thread shared wrapper (`Arc<T>`). -/
structure RArc (α : Type) where
  val : α
  deriving DecidableEq, Repr

/-- The copy-on-write wrapper (`Cow<'_, T>`): borrowed or owned. -/
inductive RCow (α : Type) where
  | borrowed (a : α)
  | owned (a : α)
  deriving DecidableEq, Repr

/-- `Cow::as_ref`: the underlying value, whichever variant holds it. -/
def RCow.asRef : RCow α → α
  | .borrowed a => a
  | .owned a => a

/-- Embeds `Box<T>::encode`: delegates to `T::encode(self, encoder)`. -/
def boxEncode (c : Codec α) (b : RBox α) : List Byte :=
  c.encBytes b.val

/-- Embeds `Rc<T>::encode`: delegates to `T::encode(self, encoder)`. -/
def rcEncode (c : Codec α) (r : RRc α) : List Byte :=
  c.encBytes r.val

/-- Embeds `Arc<T>::encode`: delegates to `T::encode(self, encoder)`. -/
def arcEncode (c : Codec α) (a : RArc α) : List Byte :=
  c.encBytes a.val

/-- Embeds `Cow<'_, T>::encode`: `self.as_ref().encode(encoder)`. -/
def cowEncode (c : Codec α) (w : RCow α) : List Byte :=
  c.encBytes w.asRef

/-! ## Sequence decode (`Vec<T>::decode`) -/

/-- Outcome of a guarded element loop. `ok` carries the fully decoded
elements (the guard was disarmed via `mem::forget`, destroying nothing);
`err` carries the propagated error together with the initialized prefix
that the guard's `Drop` destroyed; `abort` is a process abort, during
which no cleanup runs. -/
inductive LoopRes (α : Type) where
  | ok (elems : List α) (s : DecoderState)
  | err (e : DecodeError) (dropped : List α)
  | abort
  deriving DecidableEq, Repr

/-- Embeds the element loop of `Vec<T>::decode` (`for _ in 0..len` with the
partial-initialization `Guard`): per iteration, unclaim `size_of::<T>`,
decode one element, write it into the next slot and advance the guard's
index. `acc` is the initialized prefix the guard currently protects. -/
def vecLoop (c : Codec α) : Nat → DecoderState → List α → LoopRes α
  | 0, s, acc => .ok acc s
  | Nat.succ n, s, acc =>
    match c.decode (unclaim_bytes_read c.size s) with
    | .ok t s' => vecLoop c n s' (acc ++ [t])
    | .err e => .err e acc
    | .abort => .abort

/-- Embeds `Vec<T>::decode`: read the length prefix, claim the budget,
`try_reserve(len)` (failure is `OutOfMemory::TryReserve`), run the guarded
loop, then `forget` the guard and `set_len`. -/
def vecDecode (c : Codec α) (s : DecoderState) : DResult (List α) :=
  match decode_slice_len s with
  | .err e => .err e
  | .abort => .abort
  | .ok len s₁ =>
    match claim_container_read c.size len s₁ with
    | .err e => .err e
    | .abort => .abort
    | .ok _ s₂ =>
      if try_reserve (len * c.size) s₂ then
        match vecLoop c len s₂ [] with
        | .ok xs s₃ => .ok xs s₃
        | .err e _ => .err e
        | .abort => .abort
      else .err (.outOfMemory .tryReserve)

/-! ## Boxed slice decode (`Box<[T]>::decode`) -/

/-- Embeds the element loop of `Box<[T]>::decode` (`while guard.initialized
< guard.max` with its `Guard`): per iteration, unclaim `size_of::<T>`,
decode one element, write it at `guard.initialized` and increment. -/
def boxLoop (c : Codec α) : Nat → DecoderState → List α → LoopRes α
  | 0, s, acc => .ok acc s
  | Nat.succ n, s, acc =>
    match c.decode (unclaim_bytes_read c.size s) with
    | .ok t s' => boxLoop c n s' (acc ++ [t])
    | .err e => .err e acc
    | .abort => .abort

/-- Embeds `Box<[T]>::decode`: read the length prefix, claim the budget,
`Box::try_new_uninit_slice(len)` (failure is `OutOfMemory::Alloc`), run
the guarded loop, then `forget` the guard and convert the buffer. -/
def boxedSliceDecode (c : Codec α) (s : DecoderState) : DResult (List α) :=
  match decode_slice_len s with
  | .err e => .err e
  | .abort => .abort
  | .ok len s₁ =>
    match claim_container_read c.size len s₁ with
    | .err e => .err e
    | .abort => .abort
    | .ok _ s₂ =>
      if try_reserve (len * c.size) s₂ then
        match boxLoop c len s₂ [] with
        | .ok xs s₃ => .ok xs s₃
        | .err e _ => .err e
        | .abort => .abort
      else .err (.outOfMemory .alloc)

/-! ## Double-ended queue decode (`VecDeque<T>::decode`) -/

/-- Embeds the element loop of `VecDeque<T>::decode`: unclaim
`size_of::<T>`, decode one element, `push_back`. No manual guard: the
queue owns each element as soon as it is pushed. -/
def dequeLoop (c : Codec α) : Nat → DecoderState → List α → DResult (List α)
  | 0, s, acc => .ok acc s
  | Nat.succ n, s, acc =>
    match c.decode (unclaim_bytes_read c.size s) with
    | .ok t s' => dequeLoop c n s' (acc ++ [t])
    | .err e => .err e
    | .abort => .abort

/-- Embeds `VecDeque<T>::decode`: length prefix, budget claim,
`try_reserve(len)` (failure is `OutOfMemory::TryReserve`), element loop. -/
def vecDequeDecode (c : Codec α) (s : DecoderState) : DResult (List α) :=
  match decode_slice_len s with
  | .err e => .err e
  | .abort => .abort
  | .ok len s₁ =>
    match claim_container_read c.size len s₁ with
    | .err e => .err e
    | .abort => .abort
    | .ok _ s₂ =>
      if try_reserve (len * c.size) s₂ then
        dequeLoop c len s₂ []
      else .err (.outOfMemory .tryReserve)

/-! ## Priority collection decode (`BinaryHeap<T>::decode`) -/

/-- Embeds the element loop of `BinaryHeap<T>::decode`: unclaim
`size_of::<T>`, decode one element, `push`. The heap value is modelled by
its elements in push order (its internal iteration order is opaque). -/
def heapLoop (c : Codec α) : Nat → DecoderState → List α → DResult (List α)
  | 0, s, acc => .ok acc s
  | Nat.succ n, s, acc =>
    match c.decode (unclaim_bytes_read c.size s) with
    | .ok t s' => heapLoop c n s' (acc ++ [t])
    | .err e => .err e
    | .abort => .abort

/-- Embeds `BinaryHeap<T>::decode`: length prefix, budget claim, then the
INFALLIBLE `map.reserve(len)` (the fallible `try_reserve` call is present
in the source only as a commented-out TODO): if the allocator cannot
satisfy the reservation the process aborts instead of returning an
out-of-memory error. -/
def binaryHeapDecode (c : Codec α) (s : DecoderState) : DResult (List α) :=
  match decode_slice_len s with
  | .err e => .err e
  | .abort => .abort
  | .ok len s₁ =>
    match claim_container_read c.size len s₁ with
    | .err e => .err e
    | .abort => .abort
    | .ok _ s₂ =>
      if try_reserve (len * c.size) s₂ then
        heapLoop c len s₂ []
      else .abort

/-! ## Sorted set and sorted map (`BTreeSet`, `BTreeMap`) -/

/-- Modelled from the spec: the sorted set is a strictly-ascending list;
`BTreeSet::insert` places the element at its ordered position and absorbs
a duplicate (the set keeps one copy). -/
def insertSortedSet [LinearOrder α] (k : α) : List α → List α
  | [] => [k]
  | a :: t =>
    if k < a then k :: a :: t
    else if k = a then a :: t
    else a :: insertSortedSet k t

/-- Modelled from the spec: the sorted map is an association list strictly
ascending by key; `BTreeMap::insert` places the entry at its ordered
position and overwrites the value at an equal key. -/
def insertSortedMap [LinearOrder κ] (k : κ) (v : ν) :
    List (κ × ν) → List (κ × ν)
  | [] => [(k, v)]
  | (a, b) :: t =>
    if k < a then (k, v) :: (a, b) :: t
    else if k = a then (k, v) :: t
    else (a, b) :: insertSortedMap k v t

/-- A sorted set built by inserting the elements of a list in order, as the
decode loop does. -/
def setFromList [LinearOrder α] (xs : List α) : List α :=
  xs.foldl (fun m k => insertSortedSet k m) []

/-- A sorted map built by inserting the entries of a list in order, as the
decode loop does. -/
def mapFromList [LinearOrder κ] (ps : List (κ × ν)) : List (κ × ν) :=
  ps.foldl (fun m p => insertSortedMap p.1 p.2 m) []

/-- Embeds the element loop of `BTreeSet<T>::decode`: unclaim
`size_of::<T>`, decode one element, `insert`. -/
def btreeSetLoop [LinearOrder α] (c : Codec α) :
    Nat → DecoderState → List α → DResult (List α)
  | 0, s, m => .ok m s
  | Nat.succ n, s, m =>
    match c.decode (unclaim_bytes_read c.size s) with
    | .ok k s' => btreeSetLoop c n s' (insertSortedSet k m)
    | .err e => .err e
    | .abort => .abort

/-- Embeds `BTreeSet<T>::decode`: length prefix, budget claim, element loop
inserting into an empty set (no buffer reservation in the source). -/
def btreeSetDecode [LinearOrder α] (c : Codec α) (s : DecoderState) :
    DResult (List α) :=
  match decode_slice_len s with
  | .err e => .err e
  | .abort => .abort
  | .ok len s₁ =>
    match claim_container_read c.size len s₁ with
    | .err e => .err e
    | .abort => .abort
    | .ok _ s₂ => btreeSetLoop c len s₂ []

/-- Embeds `BTreeSet<T>::encode`: write the element count, then each
element in the set's iteration order (ascending, the list order). -/
def btreeSetEncode [LinearOrder α] (c : Codec α) (m : List α) : List Byte :=
  encode_slice_len m.length ++ (m.map c.encBytes).flatten

/-- Embeds the element loop of `BTreeMap<K, V>::decode`: unclaim
`size_of::<(K, V)>` (modelled as the sum of the component sizes), decode
the key, decode the value, `insert`. -/
def btreeMapLoop [LinearOrder κ] (ck : Codec κ) (cv : Codec ν) :
    Nat → DecoderState → List (κ × ν) → DResult (List (κ × ν))
  | 0, s, m => .ok m s
  | Nat.succ n, s, m =>
    match ck.decode (unclaim_bytes_read (ck.size + cv.size) s) with
    | .ok k s' =>
      match cv.decode s' with
      | .ok v s'' => btreeMapLoop ck cv n s'' (insertSortedMap k v m)
      | .err e => .err e
      | .abort => .abort
    | .err e => .err e
    | .abort => .abort

/-- Embeds `BTreeMap<K, V>::decode`: length prefix, budget claim for
`len * size_of::<(K, V)>`, element loop inserting into an empty map. -/
def btreeMapDecode [LinearOrder κ] (ck : Codec κ) (cv : Codec ν)
    (s : DecoderState) : DResult (List (κ × ν)) :=
  match decode_slice_len s with
  | .err e => .err e
  | .abort => .abort
  | .ok len s₁ =>
    match claim_container_read (ck.size + cv.size) len s₁ with
    | .err e => .err e
    | .abort => .abort
    | .ok _ s₂ => btreeMapLoop ck cv len s₂ []

/-- Embeds `BTreeMap<K, V>::encode`: write the entry count, then each key
and value in the map's iteration order (ascending by key). -/
def btreeMapEncode [LinearOrder κ] (ck : Codec κ) (cv : Codec ν)
    (m : List (κ × ν)) : List Byte :=
  encode_slice_len m.length ++
    (m.map (fun p => ck.encBytes p.1 ++ cv.encBytes p.2)).flatten

/-! ## Sequence encode and owned string -/

/-- Embeds `Vec<T>::encode`: write the element count, then each element in
insertion order. -/
def vecEncode (c : Codec α) (xs : List α) : List Byte :=
  encode_slice_len xs.length ++ (xs.map c.encBytes).flatten

/-- Modelled from the spec: whether a byte is a UTF-8 continuation byte. -/
def isCont (b : Nat) : Bool :=
  0x80 ≤ b && b ≤ 0xBF

/-- Modelled from the spec: one step of the UTF-8 validation automaton.
State 0 expects a start byte; states 1–3 expect that many generic
continuation bytes; states 4–7 are the constrained second-byte states
after `E0`, `ED`, `F0`, `F4` (excluding overlong forms and surrogates). -/
def utf8Step (st b : Nat) : Option Nat :=
  if st = 0 then
    if b ≤ 0x7F then some 0
    else if b ≤ 0xC1 then none
    else if b ≤ 0xDF then some 1
    else if b = 0xE0 then some 4
    else if b = 0xED then some 5
    else if b ≤ 0xEF then some 2
    else if b = 0xF0 then some 6
    else if b ≤ 0xF3 then some 3
    else if b = 0xF4 then some 7
    else none
  else if st = 1 then if isCont b then some 0 else none
  else if st = 2 then if isCont b then some 1 else none
  else if st = 3 then if isCont b then some 2 else none
  else if st = 4 then if 0xA0 ≤ b && b ≤ 0xBF then some 1 else none
  else if st = 5 then if 0x80 ≤ b && b ≤ 0x9F then some 1 else none
  else if st = 6 then if 0x90 ≤ b && b ≤ 0xBF then some 2 else none
  else if st = 7 then if 0x80 ≤ b && b ≤ 0x8F then some 2 else none
  else none

/-- Modelled from the spec: run the UTF-8 automaton over the bytes. -/
def utf8Accept : List Nat → Nat → Bool
  | [], st => st == 0
  | b :: rest, st =>
    match utf8Step st b with
    | some st' => utf8Accept rest st'
    | none => false

/-- Modelled from the spec: well-formed text validation
(`String::from_utf8` succeeding). -/
def validUtf8 (bs : List Nat) : Bool :=
  utf8Accept bs 0

/-- Embeds `String::decode`: decode a byte sequence via `Vec::<u8>::decode`,
then validate it as UTF-8; validation failure is `DecodeError::Utf8`. The
string value is modelled by its UTF-8 bytes. -/
def stringDecode (s : DecoderState) : DResult (List Byte) :=
  match vecDecode u8Codec s with
  | .ok bytes s' => if validUtf8 bytes then .ok bytes s' else .err .utf8
  | .err e => .err e
  | .abort => .abort

/-! ## Event-instrumented decodes

To reason about which budget and allocator operations a decode performs and
in which order, `vecDecode` and `boxedSliceDecode` are replayed with an
event trace attached; consistency lemmas below relate each traced function
to its plain counterpart. -/

/-- Budget and allocator events of one container decode (the events of
nested element decodes are internal to the element codec). -/
inductive Ev where
  | claim (n : Nat)
  | claimFail (n : Nat)
  | reserve (n : Nat)
  | unclaim (n : Nat)
  | elem
  deriving DecidableEq, Repr

/-- The element loop of `Vec<T>::decode`, with its event trace. -/
def vecLoopT (c : Codec α) :
    Nat → DecoderState → List α → LoopRes α × List Ev
  | 0, s, acc => (.ok acc s, [])
  | Nat.succ n, s, acc =>
    match c.decode (unclaim_bytes_read c.size s) with
    | .ok t s' =>
      let r := vecLoopT c n s' (acc ++ [t])
      (r.1, .unclaim c.size :: .elem :: r.2)
    | .err e => (.err e acc, [.unclaim c.size])
    | .abort => (.abort, [.unclaim c.size])

/-- `Vec<T>::decode`, with its event trace. -/
def vecDecodeT (c : Codec α) (s : DecoderState) :
    DResult (List α) × List Ev :=
  match decode_slice_len s with
  | .err e => (.err e, [])
  | .abort => (.abort, [])
  | .ok len s₁ =>
    match claim_container_read c.size len s₁ with
    | .err e => (.err e, [.claimFail (len * c.size)])
    | .abort => (.abort, [])
    | .ok _ s₂ =>
      if try_reserve (len * c.size) s₂ then
        let r := vecLoopT c len s₂ []
        ((match r.1 with
          | .ok xs s₃ => .ok xs s₃
          | .err e _ => .err e
          | .abort => .abort),
         .claim (len * c.size) :: .reserve (len * c.size) :: r.2)
      else (.err (.outOfMemory .tryReserve), [.claim (len * c.size)])

/-- The element loop of `Box<[T]>::decode`, with its event trace. -/
def boxLoopT (c : Codec α) :
    Nat → DecoderState → List α → LoopRes α × List Ev
  | 0, s, acc => (.ok acc s, [])
  | Nat.succ n, s, acc =>
    match c.decode (unclaim_bytes_read c.size s) with
    | .ok t s' =>
      let r := boxLoopT c n s' (acc ++ [t])
      (r.1, .unclaim c.size :: .elem :: r.2)
    | .err e => (.err e acc, [.unclaim c.size])
    | .abort => (.abort, [.unclaim c.size])

/-- `Box<[T]>::decode`, with its event trace. -/
def boxedSliceDecodeT (c : Codec α) (s : DecoderState) :
    DResult (List α) × List Ev :=
  match decode_slice_len s with
  | .err e => (.err e, [])
  | .abort => (.abort, [])
  | .ok len s₁ =>
    match claim_container_read c.size len s₁ with
    | .err e => (.err e, [.claimFail (len * c.size)])
    | .abort => (.abort, [])
    | .ok _ s₂ =>
      if try_reserve (len * c.size) s₂ then
        let r := boxLoopT c len s₂ []
        ((match r.1 with
          | .ok xs s₃ => .ok xs s₃
          | .err e _ => .err e
          | .abort => .abort),
         .claim (len * c.size) :: .reserve (len * c.size) :: r.2)
      else (.err (.outOfMemory .alloc), [.claim (len * c.size)])

/-- The trace of a fully successful element loop over `n` elements of size
`sz`: per element, one release of `sz` immediately before that element's
decode. -/
def unclaimElemTrace (sz : Nat) : Nat → List Ev
  | 0 => []
  | Nat.succ n => .unclaim sz :: .elem :: unclaimElemTrace sz n

/-- Total amount released by the `unclaim` events of a trace. -/
def sumUnclaim : List Ev → Nat
  | [] => 0
  | .unclaim n :: rest => n + sumUnclaim rest
  | _ :: rest => sumUnclaim rest

/-- Reference element runner: decode `n` consecutive elements (releasing
the per-element budget slice before each, as every container loop does),
returning the decoded prefix and the final state, or `none` as soon as an
element decode does not succeed. Used to characterize what the guarded
loops drop. -/
def runElems (c : Codec α) :
    Nat → DecoderState → Option (List α × DecoderState)
  | 0, s => some ([], s)
  | Nat.succ n, s =>
    match c.decode (unclaim_bytes_read c.size s) with
    | .ok t s' =>
      match runElems c n s' with
      | some (ts, s'') => some (t :: ts, s'')
      | none => none
    | .err _ => none
    | .abort => none

/-! ## Theorems -/

/-- C6: for every call to the growable output writer's `write(bytes)`,
either capacity reservation succeeds and the buffer afterwards is exactly
the old contents with `bytes` appended (so its length grows by exactly
`bytes.length`), or reservation fails and the call returns an
out-of-memory error with the buffer contents unchanged; no partial write
is ever observable. -/
theorem vecWriter_write_all_or_nothing (mem : Nat) (w : VecWriter)
    (bytes : List Byte) :
    (∃ w', VecWriter.write mem w bytes = (w', none) ∧
      w'.inner = w.inner ++ bytes ∧
      w'.inner.length = w.inner.length + bytes.length) ∨
    VecWriter.write mem w bytes = (w, some .outOfMemory) := by
  unfold VecWriter.write
  by_cases h : bytes.length ≤ mem
  · exact Or.inl ⟨⟨w.inner ++ bytes⟩, by simp [h], rfl, by simp⟩
  · exact Or.inr (by simp [h])

/-- C8: encoding a pointer wrapper (unique `Box`, sole-thread-shared `Rc`,
cross-thread-shared `Arc`, or copy-on-write `Cow` in either variant)
around an inner value produces exactly the byte sequence of encoding the
bare inner value: wrapper codecs contribute zero additional wire bytes. -/
theorem wrapper_encode_transparent {α : Type} (c : Codec α) (a : α) :
    boxEncode c ⟨a⟩ = c.encBytes a ∧
    rcEncode c ⟨a⟩ = c.encBytes a ∧
    arcEncode c ⟨a⟩ = c.encBytes a ∧
    cowEncode c (.borrowed a) = c.encBytes a ∧
    cowEncode c (.owned a) = c.encBytes a :=
  ⟨rfl, rfl, rfl, rfl, rfl⟩

/-- C1 (divergence witness): on the same input (length prefix 2, two
element bytes) under an allocator that cannot reserve the two requested
bytes, `Vec::decode` and `VecDeque::decode` return the recoverable
out-of-memory error, but `BinaryHeap::decode` reaches its INFALLIBLE
`reserve(len)` call and aborts the process instead of returning an
out-of-memory error — the initial buffer reservation is not uniformly
fallible across the three container decodes. -/
theorem binaryHeap_reserve_aborts_not_errors :
    vecDecode u8Codec ⟨[2, 5, 6], 100, 0⟩ =
      .err (.outOfMemory .tryReserve) ∧
    vecDequeDecode u8Codec ⟨[2, 5, 6], 100, 0⟩ =
      .err (.outOfMemory .tryReserve) ∧
    binaryHeapDecode u8Codec ⟨[2, 5, 6], 100, 0⟩ = .abort := by
  refine ⟨by decide, by decide, by decide⟩

/-- C2: for every container decode, once the element count has been read,
the budget claim of `count × worst-case element size` is checked before
any buffer reservation or element decode; if it fails, the decode returns
the size-limit error having performed no allocation: the traced `Vec` and
`Box<[T]>` decodes emit exactly one failed-claim event (in particular no
reservation and no element event), and the queue, heap, sorted-set and
sorted-map decodes return the same size-limit error. -/
theorem claim_checked_before_allocation {α κ ν : Type} [LinearOrder α]
    [LinearOrder κ] (c : Codec α) (ck : Codec κ) (cv : Codec ν)
    (s s₁ : DecoderState) (len : Nat)
    (h₁ : decode_slice_len s = .ok len s₁)
    (h₂ : s₁.budget < len * c.size)
    (h₃ : s₁.budget < len * (ck.size + cv.size)) :
    vecDecodeT c s = (.err .limitExceeded, [.claimFail (len * c.size)]) ∧
    boxedSliceDecodeT c s =
      (.err .limitExceeded, [.claimFail (len * c.size)]) ∧
    vecDequeDecode c s = .err .limitExceeded ∧
    binaryHeapDecode c s = .err .limitExceeded ∧
    btreeSetDecode c s = .err .limitExceeded ∧
    btreeMapDecode ck cv s = .err .limitExceeded := by
  have hc : claim_container_read c.size len s₁ = .err .limitExceeded := by
    unfold claim_container_read
    rw [if_neg (by omega)]
  have hm : claim_container_read (ck.size + cv.size) len s₁ =
      .err .limitExceeded := by
    unfold claim_container_read
    rw [if_neg (by omega)]
  refine ⟨?_, ?_, ?_, ?_, ?_, ?_⟩
  · unfold vecDecodeT; simp [h₁, hc]
  · unfold boxedSliceDecodeT; simp [h₁, hc]
  · unfold vecDequeDecode; simp [h₁, hc]
  · unfold binaryHeapDecode; simp [h₁, hc]
  · unfold btreeSetDecode; simp [h₁, hc]
  · unfold btreeMapDecode; simp [h₁, hm]

/-- Witness for C2: a length prefix claiming 10 single-byte elements
against a remaining budget of 5 is rejected with the size-limit error and
an event trace containing only the failed claim. -/
theorem claim_checked_before_allocation_witness :
    vecDecodeT u8Codec ⟨[10, 0], 5, 7⟩ =
      (.err .limitExceeded, [.claimFail 10]) ∧
    boxedSliceDecodeT u8Codec ⟨[10, 0], 5, 7⟩ =
      (.err .limitExceeded, [.claimFail 10]) ∧
    vecDequeDecode u8Codec ⟨[10, 0], 5, 7⟩ = .err .limitExceeded ∧
    binaryHeapDecode u8Codec ⟨[10, 0], 5, 7⟩ = .err .limitExceeded ∧
    btreeSetDecode u8Codec ⟨[10, 0], 5, 7⟩ = .err .limitExceeded ∧
    btreeMapDecode u8Codec u8Codec ⟨[10, 0], 5, 7⟩ = .err .limitExceeded :=
  claim_checked_before_allocation u8Codec u8Codec u8Codec
    ⟨[10, 0], 5, 7⟩ ⟨[0], 5, 7⟩ 10 (by decide) (by decide) (by decide)

/-- The traced `Vec` element loop computes the same result as the plain
one (the trace is pure instrumentation). -/
theorem vecLoopT_fst {α : Type} (c : Codec α) :
    ∀ (n : Nat) (s : DecoderState) (acc : List α),
      (vecLoopT c n s acc).1 = vecLoop c n s acc := by
  intro n
  induction n with
  | zero => intro s acc; simp [vecLoopT, vecLoop]
  | succ n ih =>
    intro s acc
    cases hd : c.decode (unclaim_bytes_read c.size s) with
    | ok t s' => simp [vecLoopT, vecLoop, hd, ih]
    | err e => simp [vecLoopT, vecLoop, hd]
    | abort => simp [vecLoopT, vecLoop, hd]

/-- The traced `Vec` decode computes the same result as the plain one. -/
theorem vecDecodeT_fst {α : Type} (c : Codec α) (s : DecoderState) :
    (vecDecodeT c s).1 = vecDecode c s := by
  rw [vecDecodeT, vecDecode]
  cases hl : decode_slice_len s with
  | err e => simp
  | abort => simp
  | ok len s₁ =>
    cases hc : claim_container_read c.size len s₁ with
    | err e => simp [hc]
    | abort => simp [hc]
    | ok u s₂ =>
      by_cases hr : try_reserve (len * c.size) s₂ = true
      · simp only [hc, hr, if_true]
        rw [← vecLoopT_fst c len s₂ []]
      · simp [hc, hr]

/-- The traced `Box<[T]>` element loop computes the same result as the
plain one. -/
theorem boxLoopT_fst {α : Type} (c : Codec α) :
    ∀ (n : Nat) (s : DecoderState) (acc : List α),
      (boxLoopT c n s acc).1 = boxLoop c n s acc := by
  intro n
  induction n with
  | zero => intro s acc; simp [boxLoopT, boxLoop]
  | succ n ih =>
    intro s acc
    cases hd : c.decode (unclaim_bytes_read c.size s) with
    | ok t s' => simp [boxLoopT, boxLoop, hd, ih]
    | err e => simp [boxLoopT, boxLoop, hd]
    | abort => simp [boxLoopT, boxLoop, hd]

/-- The traced `Box<[T]>` decode computes the same result as the plain
one. -/
theorem boxedSliceDecodeT_fst {α : Type} (c : Codec α)
    (s : DecoderState) :
    (boxedSliceDecodeT c s).1 = boxedSliceDecode c s := by
  rw [boxedSliceDecodeT, boxedSliceDecode]
  cases hl : decode_slice_len s with
  | err e => simp
  | abort => simp
  | ok len s₁ =>
    cases hc : claim_container_read c.size len s₁ with
    | err e => simp [hc]
    | abort => simp [hc]
    | ok u s₂ =>
      by_cases hr : try_reserve (len * c.size) s₂ = true
      · simp only [hc, hr, if_true]
        rw [← boxLoopT_fst c len s₂ []]
      · simp [hc, hr]

/-- A fully successful run of the `Vec` element loop over `n` elements
emits exactly the canonical per-element release trace. -/
theorem vecLoopT_ok_trace {α : Type} (c : Codec α) :
    ∀ (n : Nat) (s : DecoderState) (acc xs : List α) (s' : DecoderState)
      (evs : List Ev), vecLoopT c n s acc = (.ok xs s', evs) →
      evs = unclaimElemTrace c.size n := by
  intro n
  induction n with
  | zero =>
    intro s acc xs s' evs h
    simp [vecLoopT] at h
    simp [unclaimElemTrace, ← h.2]
  | succ n ih =>
    intro s acc xs s' evs h
    cases hd : c.decode (unclaim_bytes_read c.size s) with
    | ok t s₂ =>
      simp only [vecLoopT, hd] at h
      injection h with h1 h2
      have tr := ih s₂ (acc ++ [t]) xs s' (vecLoopT c n s₂ (acc ++ [t])).2
        (by rw [← h1])
      rw [← h2, tr, unclaimElemTrace]
    | err e => simp [vecLoopT, hd] at h
    | abort => simp [vecLoopT, hd] at h

/-- A fully successful run of the `Box<[T]>` element loop over `n`
elements emits exactly the canonical per-element release trace. -/
theorem boxLoopT_ok_trace {α : Type} (c : Codec α) :
    ∀ (n : Nat) (s : DecoderState) (acc xs : List α) (s' : DecoderState)
      (evs : List Ev), boxLoopT c n s acc = (.ok xs s', evs) →
      evs = unclaimElemTrace c.size n := by
  intro n
  induction n with
  | zero =>
    intro s acc xs s' evs h
    simp [boxLoopT] at h
    simp [unclaimElemTrace, ← h.2]
  | succ n ih =>
    intro s acc xs s' evs h
    cases hd : c.decode (unclaim_bytes_read c.size s) with
    | ok t s₂ =>
      simp only [boxLoopT, hd] at h
      injection h with h1 h2
      have tr := ih s₂ (acc ++ [t]) xs s' (boxLoopT c n s₂ (acc ++ [t])).2
        (by rw [← h1])
      rw [← h2, tr, unclaimElemTrace]
    | err e => simp [boxLoopT, hd] at h
    | abort => simp [boxLoopT, hd] at h

/-- The canonical per-element release trace releases `n * sz` in total. -/
theorem sumUnclaim_unclaimElemTrace (sz : Nat) :
    ∀ n, sumUnclaim (unclaimElemTrace sz n) = n * sz := by
  intro n
  induction n with
  | zero => simp [unclaimElemTrace, sumUnclaim]
  | succ n ih =>
    simp only [unclaimElemTrace, sumUnclaim, ih]
    ring

/-- C3: over a fully successful `Vec<T>` or `Box<[T]>` decode of `len`
elements, the budget release `unclaim_bytes_read` is invoked exactly once
per element with amount `size_of::<T>`, each invocation immediately
before that element's own decode (the event trace is the claim, the
reservation, then `len` repetitions of a release directly followed by an
element decode), and the total amount released equals the
`len * size_of::<T>` claimed up front. -/
theorem unclaim_once_per_element {α : Type} (c : Codec α)
    (s : DecoderState) (xs : List α) (s' : DecoderState) (evs : List Ev) :
    (vecDecodeT c s = (.ok xs s', evs) →
      ∃ len s₁, decode_slice_len s = .ok len s₁ ∧
        evs = .claim (len * c.size) :: .reserve (len * c.size) ::
          unclaimElemTrace c.size len ∧
        sumUnclaim evs = len * c.size) ∧
    (boxedSliceDecodeT c s = (.ok xs s', evs) →
      ∃ len s₁, decode_slice_len s = .ok len s₁ ∧
        evs = .claim (len * c.size) :: .reserve (len * c.size) ::
          unclaimElemTrace c.size len ∧
        sumUnclaim evs = len * c.size) := by
  constructor
  · intro h
    rw [vecDecodeT] at h
    cases hl : decode_slice_len s with
    | err e => simp [hl] at h
    | abort => simp [hl] at h
    | ok len s₁ =>
      simp only [hl] at h
      cases hc : claim_container_read c.size len s₁ with
      | err e => simp [hc] at h
      | abort => simp [hc] at h
      | ok u s₂ =>
        simp only [hc] at h
        by_cases hr : try_reserve (len * c.size) s₂ = true
        · simp only [hr, if_true] at h
          injection h with h1 h2
          cases hv : vecLoopT c len s₂ [] with
          | mk r1 r2 =>
            rw [hv] at h1 h2
            cases r1 with
            | ok ys s₃ =>
              have tr : r2 = unclaimElemTrace c.size len :=
                vecLoopT_ok_trace c len s₂ [] ys s₃ r2 hv
              refine ⟨len, s₁, rfl, ?_, ?_⟩
              · rw [← h2, tr]
              · rw [← h2, tr]
                simp [sumUnclaim, sumUnclaim_unclaimElemTrace]
            | err e dropped => simp at h1
            | abort => simp at h1
        · simp [hr] at h
  · intro h
    rw [boxedSliceDecodeT] at h
    cases hl : decode_slice_len s with
    | err e => simp [hl] at h
    | abort => simp [hl] at h
    | ok len s₁ =>
      simp only [hl] at h
      cases hc : claim_container_read c.size len s₁ with
      | err e => simp [hc] at h
      | abort => simp [hc] at h
      | ok u s₂ =>
        simp only [hc] at h
        by_cases hr : try_reserve (len * c.size) s₂ = true
        · simp only [hr, if_true] at h
          injection h with h1 h2
          cases hv : boxLoopT c len s₂ [] with
          | mk r1 r2 =>
            rw [hv] at h1 h2
            cases r1 with
            | ok ys s₃ =>
              have tr : r2 = unclaimElemTrace c.size len :=
                boxLoopT_ok_trace c len s₂ [] ys s₃ r2 hv
              refine ⟨len, s₁, rfl, ?_, ?_⟩
              · rw [← h2, tr]
              · rw [← h2, tr]
                simp [sumUnclaim, sumUnclaim_unclaimElemTrace]
            | err e dropped => simp at h1
            | abort => simp at h1
        · simp [hr] at h

/-- Witness for C3: decoding two single-byte elements yields the trace
claim 2, reserve 2, then per element a release of 1 immediately before
that element's decode; the two releases total the 2 bytes claimed. -/
theorem unclaim_once_per_element_witness :
    ∃ len s₁, decode_slice_len ⟨[2, 7, 8], 2, 2⟩ = .ok len s₁ ∧
      ([Ev.claim 2, Ev.reserve 2, Ev.unclaim 1, Ev.elem,
        Ev.unclaim 1, Ev.elem] : List Ev) =
        .claim (len * u8Codec.size) :: .reserve (len * u8Codec.size) ::
          unclaimElemTrace u8Codec.size len ∧
      sumUnclaim [Ev.claim 2, Ev.reserve 2, Ev.unclaim 1, Ev.elem,
        Ev.unclaim 1, Ev.elem] = len * u8Codec.size :=
  (unclaim_once_per_element u8Codec ⟨[2, 7, 8], 2, 2⟩ [7, 8] ⟨[], 2, 2⟩
    [.claim 2, .reserve 2, .unclaim 1, .elem, .unclaim 1, .elem]).1
    (by decide)

/-- The reference runner decodes exactly as many elements as it was asked. -/
theorem runElems_length {α : Type} (c : Codec α) :
    ∀ (k : Nat) (s : DecoderState) (pre : List α) (s' : DecoderState),
      runElems c k s = some (pre, s') → pre.length = k := by
  intro k
  induction k with
  | zero =>
    intro s pre s' h
    simp only [runElems] at h
    injection h with h2
    injection h2 with ha hb
    rw [← ha]
    rfl
  | succ k ih =>
    intro s pre s' h
    cases hd : c.decode (unclaim_bytes_read c.size s) with
    | ok t s₂ =>
      simp only [runElems, hd] at h
      cases hr : runElems c k s₂ with
      | none => rw [hr] at h; simp at h
      | some p =>
        obtain ⟨ts, s''⟩ := p
        rw [hr] at h
        simp at h
        obtain ⟨h1, h2⟩ := h
        rw [← h1]
        simp [ih s₂ ts s'' hr]
    | err e => simp [runElems, hd] at h
    | abort => simp [runElems, hd] at h

/-- If the first `k` element decodes succeed and the next one fails, the
guarded `Vec` loop propagates that error and its guard destroys exactly
the `k`-element initialized prefix (on top of whatever prefix `acc` it
already protected). -/
theorem vecLoop_err_of_runElems {α : Type} (c : Codec α) :
    ∀ (k : Nat) (s : DecoderState) (pre : List α) (s' : DecoderState)
      (e : DecodeError) (n : Nat) (acc : List α),
      runElems c k s = some (pre, s') → k < n →
      c.decode (unclaim_bytes_read c.size s') = .err e →
      vecLoop c n s acc = .err e (acc ++ pre) := by
  intro k
  induction k with
  | zero =>
    intro s pre s' e n acc hrun hlt hfail
    simp only [runElems] at hrun
    injection hrun with h2
    injection h2 with ha hb
    cases n with
    | zero => omega
    | succ m =>
      rw [← hb] at hfail
      simp only [vecLoop, hfail]
      rw [← ha]
      simp
  | succ k ih =>
    intro s pre s' e n acc hrun hlt hfail
    cases hd : c.decode (unclaim_bytes_read c.size s) with
    | ok t s₂ =>
      simp only [runElems, hd] at hrun
      cases hr : runElems c k s₂ with
      | none => rw [hr] at hrun; simp at hrun
      | some p =>
        obtain ⟨ts, s''⟩ := p
        rw [hr] at hrun
        simp at hrun
        obtain ⟨h1, h2⟩ := hrun
        cases n with
        | zero => omega
        | succ m =>
          simp only [vecLoop, hd]
          have step := ih s₂ ts s'' e m (acc ++ [t]) hr (by omega)
            (by rw [h2]; exact hfail)
          rw [step, ← h1]
          simp
    | err e' => simp [runElems, hd] at hrun
    | abort => simp [runElems, hd] at hrun

/-- If the first `k` element decodes succeed and the next one fails, the
guarded `Box<[T]>` loop propagates that error and its guard destroys
exactly the `k`-element initialized prefix. -/
theorem boxLoop_err_of_runElems {α : Type} (c : Codec α) :
    ∀ (k : Nat) (s : DecoderState) (pre : List α) (s' : DecoderState)
      (e : DecodeError) (n : Nat) (acc : List α),
      runElems c k s = some (pre, s') → k < n →
      c.decode (unclaim_bytes_read c.size s') = .err e →
      boxLoop c n s acc = .err e (acc ++ pre) := by
  intro k
  induction k with
  | zero =>
    intro s pre s' e n acc hrun hlt hfail
    simp only [runElems] at hrun
    injection hrun with h2
    injection h2 with ha hb
    cases n with
    | zero => omega
    | succ m =>
      rw [← hb] at hfail
      simp only [boxLoop, hfail]
      rw [← ha]
      simp
  | succ k ih =>
    intro s pre s' e n acc hrun hlt hfail
    cases hd : c.decode (unclaim_bytes_read c.size s) with
    | ok t s₂ =>
      simp only [runElems, hd] at hrun
      cases hr : runElems c k s₂ with
      | none => rw [hr] at hrun; simp at hrun
      | some p =>
        obtain ⟨ts, s''⟩ := p
        rw [hr] at hrun
        simp at hrun
        obtain ⟨h1, h2⟩ := hrun
        cases n with
        | zero => omega
        | succ m =>
          simp only [boxLoop, hd]
          have step := ih s₂ ts s'' e m (acc ++ [t]) hr (by omega)
            (by rw [h2]; exact hfail)
          rw [step, ← h1]
          simp
    | err e' => simp [runElems, hd] at hrun
    | abort => simp [runElems, hd] at hrun

/-- On full success the `Vec` loop is exactly the reference runner: the
guard is disarmed and every decoded element ends up in the result. -/
theorem vecLoop_ok_runElems {α : Type} (c : Codec α) :
    ∀ (n : Nat) (s : DecoderState) (acc xs : List α) (s'' : DecoderState),
      vecLoop c n s acc = .ok xs s'' →
      ∃ ts, runElems c n s = some (ts, s'') ∧ xs = acc ++ ts := by
  intro n
  induction n with
  | zero =>
    intro s acc xs s'' h
    simp only [vecLoop] at h
    injection h with h1 h2
    exact ⟨[], by simp [runElems, h2], by simp [← h1]⟩
  | succ n ih =>
    intro s acc xs s'' h
    cases hd : c.decode (unclaim_bytes_read c.size s) with
    | ok t s₂ =>
      simp only [vecLoop, hd] at h
      obtain ⟨ts, hr, hx⟩ := ih s₂ (acc ++ [t]) xs s'' h
      refine ⟨t :: ts, by simp [runElems, hd, hr], ?_⟩
      rw [hx]
      simp
    | err e => simp [vecLoop, hd] at h
    | abort => simp [vecLoop, hd] at h

/-- On full success the `Box<[T]>` loop is exactly the reference runner. -/
theorem boxLoop_ok_runElems {α : Type} (c : Codec α) :
    ∀ (n : Nat) (s : DecoderState) (acc xs : List α) (s'' : DecoderState),
      boxLoop c n s acc = .ok xs s'' →
      ∃ ts, runElems c n s = some (ts, s'') ∧ xs = acc ++ ts := by
  intro n
  induction n with
  | zero =>
    intro s acc xs s'' h
    simp only [boxLoop] at h
    injection h with h1 h2
    exact ⟨[], by simp [runElems, h2], by simp [← h1]⟩
  | succ n ih =>
    intro s acc xs s'' h
    cases hd : c.decode (unclaim_bytes_read c.size s) with
    | ok t s₂ =>
      simp only [boxLoop, hd] at h
      obtain ⟨ts, hr, hx⟩ := ih s₂ (acc ++ [t]) xs s'' h
      refine ⟨t :: ts, by simp [runElems, hd, hr], ?_⟩
      rw [hx]
      simp
    | err e => simp [boxLoop, hd] at h
    | abort => simp [boxLoop, hd] at h

/-- C4: while decoding a sequence (`Vec` or boxed slice) of `n` elements,
if the first `k` element decodes succeed (`k < n`) and element `k`'s
decode fails, the guarded loop propagates exactly that one error and the
guard destroys exactly the `k` already-constructed elements — the
initialized prefix, in order — and nothing else (only `k` slots were ever
written); on full success the guard is disarmed, no element is destroyed,
and the result is exactly the decoded elements. -/
theorem guard_drops_initialized_only {α : Type} (c : Codec α) (k n : Nat)
    (s : DecoderState) (pre : List α) (s' : DecoderState)
    (e : DecodeError) (xs : List α) (s'' : DecoderState) :
    (runElems c k s = some (pre, s') → k < n →
      c.decode (unclaim_bytes_read c.size s') = .err e →
      vecLoop c n s [] = .err e pre ∧ boxLoop c n s [] = .err e pre ∧
      pre.length = k) ∧
    (vecLoop c n s [] = .ok xs s'' → runElems c n s = some (xs, s'')) ∧
    (boxLoop c n s [] = .ok xs s'' → runElems c n s = some (xs, s'')) := by
  refine ⟨?_, ?_, ?_⟩
  · intro hrun hlt hfail
    refine ⟨?_, ?_, runElems_length c k s pre s' hrun⟩
    · simpa using vecLoop_err_of_runElems c k s pre s' e n [] hrun hlt hfail
    · simpa using boxLoop_err_of_runElems c k s pre s' e n [] hrun hlt hfail
  · intro h
    obtain ⟨ts, hr, hx⟩ := vecLoop_ok_runElems c n s [] xs s'' h
    rw [hx]
    simpa using hr
  · intro h
    obtain ⟨ts, hr, hx⟩ := boxLoop_ok_runElems c n s [] xs s'' h
    rw [hx]
    simpa using hr

/-- Witness for C4: decoding 3 single-byte elements from an input holding
only 2 bytes fails at element 2 (0-based); both guarded loops report the
single structural error and drop exactly the two decoded elements. -/
theorem guard_drops_initialized_only_witness :
    vecLoop u8Codec 3 ⟨[7, 8], 10, 10⟩ [] = .err .unexpectedEnd [7, 8] ∧
    boxLoop u8Codec 3 ⟨[7, 8], 10, 10⟩ [] = .err .unexpectedEnd [7, 8] ∧
    ([7, 8] : List Nat).length = 2 :=
  (guard_drops_initialized_only u8Codec 2 3 ⟨[7, 8], 10, 10⟩ [7, 8]
    ⟨[], 12, 10⟩ .unexpectedEnd [] ⟨[], 0, 0⟩).1 (by decide) (by decide)
    (by decide)

/-- For an element codec that round-trips, the `Vec` element loop decodes
the encoded elements back in order, restoring exactly the per-element
budget it releases. -/
theorem vecLoop_roundtrip {α : Type} (c : Codec α)
    (H : ∀ (a : α) (input : List Byte) (budget mem : Nat),
      c.decode ⟨c.encBytes a ++ input, budget, mem⟩ =
        .ok a ⟨input, budget, mem⟩) :
    ∀ (xs : List α) (rest : List Byte) (b m : Nat) (acc : List α),
      vecLoop c xs.length ⟨(xs.map c.encBytes).flatten ++ rest, b, m⟩ acc =
        .ok (acc ++ xs) ⟨rest, b + xs.length * c.size, m⟩ := by
  intro xs
  induction xs with
  | nil =>
    intro rest b m acc
    simp [vecLoop]
  | cons x xs ih =>
    intro rest b m acc
    have hdec : c.decode (unclaim_bytes_read c.size
        ⟨((x :: xs).map c.encBytes).flatten ++ rest, b, m⟩) =
        .ok x ⟨(xs.map c.encBytes).flatten ++ rest, b + c.size, m⟩ := by
      have h := H x ((xs.map c.encBytes).flatten ++ rest) (b + c.size) m
      simpa [unclaim_bytes_read, List.append_assoc] using h
    simp only [List.length_cons, vecLoop, hdec]
    rw [ih rest (b + c.size) m (acc ++ [x])]
    have hb : b + c.size + xs.length * c.size =
        b + (xs.length + 1) * c.size := by ring
    rw [hb]
    simp

/-- C5: for every sequence value whose element codec round-trips (decoding
its encoding consumes exactly those bytes and restores the state),
decoding the bytes produced by encoding the sequence succeeds — given
enough budget and allocator capacity for the up-front claim and
reservation — and yields the same elements in the same order, with the
budget fully restored. -/
theorem vec_roundtrip {α : Type} (c : Codec α)
    (H : ∀ (a : α) (input : List Byte) (budget mem : Nat),
      c.decode ⟨c.encBytes a ++ input, budget, mem⟩ =
        .ok a ⟨input, budget, mem⟩)
    (xs : List α) (rest : List Byte) (budget mem : Nat)
    (hb : xs.length * c.size ≤ budget) (hm : xs.length * c.size ≤ mem) :
    vecDecode c ⟨vecEncode c xs ++ rest, budget, mem⟩ =
      .ok xs ⟨rest, budget, mem⟩ := by
  have hsl : decode_slice_len ⟨vecEncode c xs ++ rest, budget, mem⟩ =
      .ok xs.length ⟨(xs.map c.encBytes).flatten ++ rest, budget, mem⟩ := by
    simp [vecEncode, encode_slice_len, decode_slice_len]
  have hcl : claim_container_read c.size xs.length
      ⟨(xs.map c.encBytes).flatten ++ rest, budget, mem⟩ =
      .ok () ⟨(xs.map c.encBytes).flatten ++ rest,
        budget - xs.length * c.size, mem⟩ := by
    simp [claim_container_read, hb]
  have hres : try_reserve (xs.length * c.size)
      ⟨(xs.map c.encBytes).flatten ++ rest,
        budget - xs.length * c.size, mem⟩ = true := by
    simp [try_reserve, hm]
  rw [vecDecode]
  simp only [hsl, hcl, hres, if_true]
  rw [vecLoop_roundtrip c H xs rest (budget - xs.length * c.size) mem []]
  simp [Nat.sub_add_cancel hb]

/-- Witness for C5: the spec's concrete scenario — encoding `[1, 2, 3]` as
single-byte elements gives wire bytes `03 01 02 03`, and decoding them
yields `[1, 2, 3]` again. -/
theorem vec_roundtrip_witness :
    vecDecode u8Codec ⟨vecEncode u8Codec [1, 2, 3] ++ [], 3, 3⟩ =
      .ok [1, 2, 3] ⟨[], 3, 3⟩ :=
  vec_roundtrip u8Codec (fun a input b m => rfl) [1, 2, 3] [] 3 3
    (by decide) (by decide)

/-- The single-byte codec only fails structurally (on missing input). -/
theorem u8Codec_err_unexpectedEnd :
    ∀ (s : DecoderState) (e : DecodeError),
      u8Codec.decode s = .err e → e = .unexpectedEnd := by
  intro s e h
  cases hs : s.input with
  | nil =>
    simp only [u8Codec, hs] at h
    injection h with h1
    exact h1.symm
  | cons b rest => simp [u8Codec, hs] at h

/-- The `Vec` element loop over the single-byte codec only fails
structurally. -/
theorem vecLoop_u8_err :
    ∀ (n : Nat) (s : DecoderState) (acc : List Nat) (e : DecodeError)
      (dropped : List Nat), vecLoop u8Codec n s acc = .err e dropped →
      e = .unexpectedEnd := by
  intro n
  induction n with
  | zero => intro s acc e dropped h; simp [vecLoop] at h
  | succ n ih =>
    intro s acc e dropped h
    cases hd : u8Codec.decode (unclaim_bytes_read u8Codec.size s) with
    | ok t s₂ =>
      simp only [vecLoop, hd] at h
      exact ih s₂ (acc ++ [t]) e dropped h
    | err e' =>
      simp only [vecLoop, hd] at h
      injection h with h1 h2
      rw [← h1]
      exact u8Codec_err_unexpectedEnd _ e' hd
    | abort => simp [vecLoop, hd] at h

/-- Decoding a byte sequence never itself produces the malformed-text
error: `Vec::<u8>::decode` fails only with structural, size-limit or
out-of-memory errors. -/
theorem vecDecode_u8_no_utf8 (s : DecoderState) :
    vecDecode u8Codec s ≠ .err .utf8 := by
  intro h
  rw [vecDecode] at h
  cases hl : decode_slice_len s with
  | err e =>
    simp only [hl] at h
    injection h with h1
    rw [decode_slice_len] at hl
    cases hs : s.input with
    | nil =>
      rw [hs] at hl
      injection hl with h2
      rw [← h2] at h1
      exact DecodeError.noConfusion h1
    | cons b rest => simp [hs] at hl
  | abort => simp [hl] at h
  | ok len s₁ =>
    simp only [hl] at h
    cases hc : claim_container_read u8Codec.size len s₁ with
    | err e =>
      simp only [hc] at h
      injection h with h1
      rw [claim_container_read] at hc
      by_cases hcl : len * u8Codec.size ≤ s₁.budget
      · simp [hcl] at hc
      · simp only [if_neg hcl] at hc
        injection hc with h2
        rw [← h2] at h1
        exact DecodeError.noConfusion h1
    | abort => simp [hc] at h
    | ok u s₂ =>
      simp only [hc] at h
      by_cases hr : try_reserve (len * u8Codec.size) s₂ = true
      · simp only [hr, if_true] at h
        cases hv : vecLoop u8Codec len s₂ [] with
        | ok xs s₃ => simp [hv] at h
        | err e dropped =>
          simp only [hv] at h
          injection h with h1
          have := vecLoop_u8_err len s₂ [] e dropped hv
          rw [this] at h1
          exact DecodeError.noConfusion h1
        | abort => simp [hv] at h
      · simp [hr] at h

/-- C7: decoding an owned string first decodes a length-prefixed byte
sequence and only then validates it as UTF-8: the malformed-text error is
raised exactly when the byte sequence decoded successfully and failed
validation (for byte sequences it is never produced elsewhere); a valid
byte sequence yields the string; a byte-sequence failure is propagated
unchanged; and the malformed-text error is distinct from every other
error variant. -/
theorem string_decode_utf8_after_bytes (s : DecoderState) :
    (stringDecode s = .err .utf8 ↔
      ∃ bs s', vecDecode u8Codec s = .ok bs s' ∧ validUtf8 bs = false) ∧
    (∀ bs s', vecDecode u8Codec s = .ok bs s' → validUtf8 bs = true →
      stringDecode s = .ok bs s') ∧
    (∀ e, vecDecode u8Codec s = .err e → stringDecode s = .err e) ∧
    (.utf8 : DecodeError) ≠ .limitExceeded ∧
    (∀ k, (.utf8 : DecodeError) ≠ .outOfMemory k) ∧
    (.utf8 : DecodeError) ≠ .unexpectedEnd ∧
    (∀ code, (.utf8 : DecodeError) ≠ .other code) := by
  refine ⟨⟨?_, ?_⟩, ?_, ?_, by simp, by simp, by simp, by simp⟩
  · intro h
    rw [stringDecode] at h
    cases hv : vecDecode u8Codec s with
    | ok bs s' =>
      simp only [hv] at h
      by_cases hu : validUtf8 bs = true
      · simp [hu] at h
      · exact ⟨bs, s', rfl, by simpa using hu⟩
    | err e =>
      simp only [hv] at h
      injection h with h1
      rw [h1] at hv
      exact absurd hv (vecDecode_u8_no_utf8 s)
    | abort => simp [hv] at h
  · rintro ⟨bs, s', hv, hu⟩
    rw [stringDecode]
    simp [hv, hu]
  · intro bs s' hv hu
    rw [stringDecode]
    simp [hv, hu]
  · intro e hv
    rw [stringDecode]
    simp [hv]

/-- Witness for C7: the spec's concrete scenario — the byte sequence
`[0xFF, 0xFE]` decodes as bytes but fails text validation with the
malformed-text error. -/
theorem string_decode_utf8_after_bytes_witness :
    stringDecode ⟨[2, 255, 254], 10, 10⟩ = .err .utf8 :=
  (string_decode_utf8_after_bytes ⟨[2, 255, 254], 10, 10⟩).1.mpr
    ⟨[255, 254], ⟨[], 10, 10⟩, by decide, by decide⟩

/-- Every member of `insertSortedSet k l` is `k` or a member of `l`. -/
theorem mem_insertSortedSet {α : Type} [LinearOrder α] (k x : α) :
    ∀ (l : List α), x ∈ insertSortedSet k l → x = k ∨ x ∈ l := by
  intro l
  induction l with
  | nil =>
    intro h
    simp [insertSortedSet] at h
    exact Or.inl h
  | cons a t ih =>
    intro h
    by_cases h1 : k < a
    · simp only [insertSortedSet, if_pos h1] at h
      rcases List.mem_cons.mp h with h | h
      · exact Or.inl h
      · exact Or.inr h
    · by_cases h2 : k = a
      · simp only [insertSortedSet, if_neg h1, if_pos h2] at h
        exact Or.inr h
      · simp only [insertSortedSet, if_neg h1, if_neg h2] at h
        rcases List.mem_cons.mp h with h | h
        · exact Or.inr (by simp [h])
        · rcases ih h with h | h
          · exact Or.inl h
          · exact Or.inr (List.mem_cons_of_mem a h)

/-- `insertSortedSet` preserves strict ascending order. -/
theorem pairwise_insertSortedSet {α : Type} [LinearOrder α] (k : α) :
    ∀ (l : List α), l.Pairwise (· < ·) →
      (insertSortedSet k l).Pairwise (· < ·) := by
  intro l
  induction l with
  | nil => intro _; simp [insertSortedSet]
  | cons a t ih =>
    intro hp
    rw [List.pairwise_cons] at hp
    obtain ⟨ha, ht⟩ := hp
    by_cases h1 : k < a
    · simp only [insertSortedSet, if_pos h1]
      refine List.Pairwise.cons ?_ (List.Pairwise.cons ha ht)
      intro x hx
      rcases List.mem_cons.mp hx with h | h
      · rw [h]; exact h1
      · exact lt_trans h1 (ha x h)
    · by_cases h2 : k = a
      · simp only [insertSortedSet, if_neg h1, if_pos h2]
        exact List.Pairwise.cons ha ht
      · have h3 : a < k :=
          lt_of_le_of_ne (not_lt.mp h1) (fun he => h2 he.symm)
        simp only [insertSortedSet, if_neg h1, if_neg h2]
        refine List.Pairwise.cons ?_ (ih ht)
        intro x hx
        rcases mem_insertSortedSet k x t hx with h | h
        · rw [h]; exact h3
        · exact ha x h

/-- Every member of `insertSortedMap k v l` is `(k, v)` or a member of
`l`. -/
theorem mem_insertSortedMap {κ ν : Type} [LinearOrder κ] (k : κ) (v : ν)
    (x : κ × ν) : ∀ (l : List (κ × ν)),
      x ∈ insertSortedMap k v l → x = (k, v) ∨ x ∈ l := by
  intro l
  induction l with
  | nil =>
    intro h
    simp [insertSortedMap] at h
    exact Or.inl (by simp [h])
  | cons p t ih =>
    obtain ⟨a, b⟩ := p
    intro h
    by_cases h1 : k < a
    · simp only [insertSortedMap, if_pos h1] at h
      rcases List.mem_cons.mp h with h | h
      · exact Or.inl h
      · exact Or.inr h
    · by_cases h2 : k = a
      · simp only [insertSortedMap, if_neg h1, if_pos h2] at h
        rcases List.mem_cons.mp h with h | h
        · exact Or.inl h
        · exact Or.inr (List.mem_cons_of_mem (a, b) h)
      · simp only [insertSortedMap, if_neg h1, if_neg h2] at h
        rcases List.mem_cons.mp h with h | h
        · exact Or.inr (by simp [h])
        · rcases ih h with h | h
          · exact Or.inl h
          · exact Or.inr (List.mem_cons_of_mem (a, b) h)

/-- `insertSortedMap` preserves strict ascending key order. -/
theorem pairwise_insertSortedMap {κ ν : Type} [LinearOrder κ] (k : κ)
    (v : ν) : ∀ (l : List (κ × ν)),
      l.Pairwise (fun p q => p.1 < q.1) →
      (insertSortedMap k v l).Pairwise (fun p q => p.1 < q.1) := by
  intro l
  induction l with
  | nil => intro _; simp [insertSortedMap]
  | cons p t ih =>
    obtain ⟨a, b⟩ := p
    intro hp
    rw [List.pairwise_cons] at hp
    obtain ⟨ha, ht⟩ := hp
    by_cases h1 : k < a
    · simp only [insertSortedMap, if_pos h1]
      refine List.Pairwise.cons ?_ (List.Pairwise.cons ha ht)
      intro x hx
      rcases List.mem_cons.mp hx with h | h
      · rw [h]; exact h1
      · exact lt_trans h1 (ha x h)
    · by_cases h2 : k = a
      · simp only [insertSortedMap, if_neg h1, if_pos h2]
        refine List.Pairwise.cons ?_ ht
        intro x hx
        have := ha x hx
        simp only []
        rw [h2]
        exact this
      · have h3 : a < k :=
          lt_of_le_of_ne (not_lt.mp h1) (fun he => h2 he.symm)
        simp only [insertSortedMap, if_neg h1, if_neg h2]
        refine List.Pairwise.cons ?_ (ih ht)
        intro x hx
        rcases mem_insertSortedMap k v x t hx with h | h
        · rw [h]; exact h3
        · exact ha x h

/-- Folding inserts over any start keeps the set strictly ascending. -/
theorem pairwise_setFold {α : Type} [LinearOrder α] :
    ∀ (xs : List α) (acc : List α), acc.Pairwise (· < ·) →
      (xs.foldl (fun m k => insertSortedSet k m) acc).Pairwise (· < ·) := by
  intro xs
  induction xs with
  | nil => intro acc h; simpa using h
  | cons x xs ih =>
    intro acc h
    simp only [List.foldl_cons]
    exact ih _ (pairwise_insertSortedSet x acc h)

/-- Folding inserts over any start keeps the map ascending by key. -/
theorem pairwise_mapFold {κ ν : Type} [LinearOrder κ] :
    ∀ (ps : List (κ × ν)) (acc : List (κ × ν)),
      acc.Pairwise (fun p q => p.1 < q.1) →
      (ps.foldl (fun m p => insertSortedMap p.1 p.2 m) acc).Pairwise
        (fun p q => p.1 < q.1) := by
  intro ps
  induction ps with
  | nil => intro acc h; simpa using h
  | cons p ps ih =>
    intro acc h
    simp only [List.foldl_cons]
    exact ih _ (pairwise_insertSortedMap p.1 p.2 acc h)

/-- C9: a sorted set or sorted map built by inserting elements in any
order iterates — and is therefore encoded, count first — in strictly
ascending (key) order; concretely, building from keys `{3, 1, 2}` yields
iteration `1, 2, 3`, the encoding is the count `3` followed by the
ascending entries, and decoding that encoding back yields the ascending
container again. -/
theorem btree_encode_sorted :
    (∀ {α : Type} [LinearOrder α] (xs : List α),
      (setFromList xs).Pairwise (· < ·)) ∧
    (∀ {κ ν : Type} [LinearOrder κ] (ps : List (κ × ν)),
      (mapFromList ps).Pairwise (fun p q => p.1 < q.1)) ∧
    setFromList [3, 1, 2] = [1, 2, 3] ∧
    btreeSetEncode u8Codec (setFromList [3, 1, 2]) = [3, 1, 2, 3] ∧
    btreeSetDecode u8Codec
      ⟨btreeSetEncode u8Codec (setFromList [3, 1, 2]), 10, 10⟩ =
      .ok [1, 2, 3] ⟨[], 10, 10⟩ ∧
    mapFromList [(3, 30), (1, 10), (2, 20)] = [(1, 10), (2, 20), (3, 30)] ∧
    btreeMapDecode u8Codec u8Codec
      ⟨btreeMapEncode u8Codec u8Codec
        (mapFromList [(3, 30), (1, 10), (2, 20)]), 10, 10⟩ =
      .ok [(1, 10), (2, 20), (3, 30)] ⟨[], 10, 10⟩ := by
  refine ⟨?_, ?_, by decide, by decide, by decide, by decide, by decide⟩
  · intro α instα xs
    exact pairwise_setFold xs [] (by simp)
  · intro κ ν instκ ps
    exact pairwise_mapFold ps [] (by simp)

/-- For an element codec that round-trips, the `BTreeSet` element loop
decodes the encoded elements and inserts each in turn, duplicates and
all, restoring the released budget. -/
theorem btreeSetLoop_roundtrip {α : Type} [LinearOrder α] (c : Codec α)
    (H : ∀ (a : α) (input : List Byte) (budget mem : Nat),
      c.decode ⟨c.encBytes a ++ input, budget, mem⟩ =
        .ok a ⟨input, budget, mem⟩) :
    ∀ (xs : List α) (rest : List Byte) (b m : Nat) (acc : List α),
      btreeSetLoop c xs.length
        ⟨(xs.map c.encBytes).flatten ++ rest, b, m⟩ acc =
        .ok (xs.foldl (fun mm k => insertSortedSet k mm) acc)
          ⟨rest, b + xs.length * c.size, m⟩ := by
  intro xs
  induction xs with
  | nil =>
    intro rest b m acc
    simp [btreeSetLoop]
  | cons x xs ih =>
    intro rest b m acc
    have hdec : c.decode (unclaim_bytes_read c.size
        ⟨((x :: xs).map c.encBytes).flatten ++ rest, b, m⟩) =
        .ok x ⟨(xs.map c.encBytes).flatten ++ rest, b + c.size, m⟩ := by
      have h := H x ((xs.map c.encBytes).flatten ++ rest) (b + c.size) m
      simpa [unclaim_bytes_read, List.append_assoc] using h
    simp only [List.length_cons, btreeSetLoop, hdec]
    rw [ih rest (b + c.size) m (insertSortedSet x acc)]
    have hb : b + c.size + xs.length * c.size =
        b + (xs.length + 1) * c.size := by ring
    rw [hb]
    simp

/-- For key and value codecs that round-trip, the `BTreeMap` element loop
decodes each encoded entry and inserts it in turn, duplicates and all,
restoring the released budget. -/
theorem btreeMapLoop_roundtrip {κ ν : Type} [LinearOrder κ]
    (ck : Codec κ) (cv : Codec ν)
    (Hk : ∀ (a : κ) (input : List Byte) (budget mem : Nat),
      ck.decode ⟨ck.encBytes a ++ input, budget, mem⟩ =
        .ok a ⟨input, budget, mem⟩)
    (Hv : ∀ (a : ν) (input : List Byte) (budget mem : Nat),
      cv.decode ⟨cv.encBytes a ++ input, budget, mem⟩ =
        .ok a ⟨input, budget, mem⟩) :
    ∀ (ps : List (κ × ν)) (rest : List Byte) (b m : Nat)
      (acc : List (κ × ν)),
      btreeMapLoop ck cv ps.length
        ⟨(ps.map (fun p => ck.encBytes p.1 ++ cv.encBytes p.2)).flatten
          ++ rest, b, m⟩ acc =
        .ok (ps.foldl (fun mm p => insertSortedMap p.1 p.2 mm) acc)
          ⟨rest, b + ps.length * (ck.size + cv.size), m⟩ := by
  intro ps
  induction ps with
  | nil =>
    intro rest b m acc
    simp [btreeMapLoop]
  | cons p ps ih =>
    obtain ⟨k, v⟩ := p
    intro rest b m acc
    have hk : ck.decode (unclaim_bytes_read (ck.size + cv.size)
        ⟨(((k, v) :: ps).map
          (fun p => ck.encBytes p.1 ++ cv.encBytes p.2)).flatten ++ rest,
          b, m⟩) =
        .ok k ⟨cv.encBytes v ++
          ((ps.map (fun p => ck.encBytes p.1 ++ cv.encBytes p.2)).flatten
            ++ rest), b + (ck.size + cv.size), m⟩ := by
      have h := Hk k (cv.encBytes v ++
        ((ps.map (fun p => ck.encBytes p.1 ++ cv.encBytes p.2)).flatten
          ++ rest)) (b + (ck.size + cv.size)) m
      simpa [unclaim_bytes_read, List.append_assoc] using h
    have hv : cv.decode ⟨cv.encBytes v ++
        ((ps.map (fun p => ck.encBytes p.1 ++ cv.encBytes p.2)).flatten
          ++ rest), b + (ck.size + cv.size), m⟩ =
        .ok v ⟨(ps.map
          (fun p => ck.encBytes p.1 ++ cv.encBytes p.2)).flatten ++ rest,
          b + (ck.size + cv.size), m⟩ :=
      Hv v ((ps.map (fun p => ck.encBytes p.1 ++ cv.encBytes p.2)).flatten
        ++ rest) (b + (ck.size + cv.size)) m
    simp only [List.length_cons, btreeMapLoop, hk, hv]
    rw [ih rest (b + (ck.size + cv.size)) m (insertSortedMap k v acc)]
    have hb : b + (ck.size + cv.size) + ps.length * (ck.size + cv.size) =
        b + (ps.length + 1) * (ck.size + cv.size) := by ring
    rw [hb]
    simp

/-- Inserting into a sorted set grows it by at most one element. -/
theorem insertSortedSet_length {α : Type} [LinearOrder α] (k : α) :
    ∀ (l : List α), (insertSortedSet k l).length ≤ l.length + 1 := by
  intro l
  induction l with
  | nil => simp [insertSortedSet]
  | cons a t ih =>
    by_cases h1 : k < a
    · simp [insertSortedSet, h1]
    · by_cases h2 : k = a
      · simp [insertSortedSet, h1, h2]
      · simp only [insertSortedSet, if_neg h1, if_neg h2, List.length_cons]
        omega

/-- Inserting into a sorted map grows it by at most one entry. -/
theorem insertSortedMap_length {κ ν : Type} [LinearOrder κ] (k : κ)
    (v : ν) : ∀ (l : List (κ × ν)),
      (insertSortedMap k v l).length ≤ l.length + 1 := by
  intro l
  induction l with
  | nil => simp [insertSortedMap]
  | cons p t ih =>
    obtain ⟨a, b⟩ := p
    by_cases h1 : k < a
    · simp [insertSortedMap, h1]
    · by_cases h2 : k = a
      · simp [insertSortedMap, h1, h2]
      · simp only [insertSortedMap, if_neg h1, if_neg h2, List.length_cons]
        omega

/-- A set built from `n` inserts holds at most `n` elements. -/
theorem setFromList_length {α : Type} [LinearOrder α] (xs : List α) :
    (setFromList xs).length ≤ xs.length := by
  have aux : ∀ (ys : List α) (acc : List α),
      (ys.foldl (fun m k => insertSortedSet k m) acc).length ≤
        acc.length + ys.length := by
    intro ys
    induction ys with
    | nil => intro acc; simp
    | cons y ys ih =>
      intro acc
      simp only [List.foldl_cons, List.length_cons]
      have h1 := ih (insertSortedSet y acc)
      have h2 := insertSortedSet_length y acc
      omega
  simpa [setFromList] using aux xs []

/-- A map built from `n` inserts holds at most `n` entries. -/
theorem mapFromList_length {κ ν : Type} [LinearOrder κ]
    (ps : List (κ × ν)) : (mapFromList ps).length ≤ ps.length := by
  have aux : ∀ (qs : List (κ × ν)) (acc : List (κ × ν)),
      (qs.foldl (fun m p => insertSortedMap p.1 p.2 m) acc).length ≤
        acc.length + qs.length := by
    intro qs
    induction qs with
    | nil => intro acc; simp
    | cons q qs ih =>
      intro acc
      simp only [List.foldl_cons, List.length_cons]
      have h1 := ih (insertSortedMap q.1 q.2 acc)
      have h2 := insertSortedMap_length q.1 q.2 acc
      omega
  simpa [mapFromList] using aux ps []

/-- C10: when the encoded input of a sorted map or sorted set contains
duplicate keys, decode still succeeds — each entry is decoded and passed
to `insert`, so a later duplicate overwrites (map) or is absorbed by
(set) the earlier one — the decoded container's length is at most, and
can be strictly less than, the length-prefix count, and no error is
raised for duplicates; concretely, three encoded elements with key `1`
twice decode to a two-element container. -/
theorem btree_decode_duplicates {α κ ν : Type} [LinearOrder α]
    [LinearOrder κ] (c : Codec α) (ck : Codec κ) (cv : Codec ν)
    (Hc : ∀ (a : α) (input : List Byte) (budget mem : Nat),
      c.decode ⟨c.encBytes a ++ input, budget, mem⟩ =
        .ok a ⟨input, budget, mem⟩)
    (Hk : ∀ (a : κ) (input : List Byte) (budget mem : Nat),
      ck.decode ⟨ck.encBytes a ++ input, budget, mem⟩ =
        .ok a ⟨input, budget, mem⟩)
    (Hv : ∀ (a : ν) (input : List Byte) (budget mem : Nat),
      cv.decode ⟨cv.encBytes a ++ input, budget, mem⟩ =
        .ok a ⟨input, budget, mem⟩)
    (xs : List α) (ps : List (κ × ν)) (rest : List Byte) (b m : Nat)
    (hb : xs.length * c.size ≤ b)
    (hp : ps.length * (ck.size + cv.size) ≤ b) :
    btreeSetDecode c ⟨encode_slice_len xs.length ++
      (xs.map c.encBytes).flatten ++ rest, b, m⟩ =
      .ok (setFromList xs) ⟨rest, b, m⟩ ∧
    btreeMapDecode ck cv ⟨encode_slice_len ps.length ++
      (ps.map (fun p => ck.encBytes p.1 ++ cv.encBytes p.2)).flatten
      ++ rest, b, m⟩ = .ok (mapFromList ps) ⟨rest, b, m⟩ ∧
    (setFromList xs).length ≤ xs.length ∧
    (mapFromList ps).length ≤ ps.length ∧
    btreeSetDecode u8Codec ⟨[3, 1, 1, 2], 10, 10⟩ =
      .ok [1, 2] ⟨[], 10, 10⟩ ∧
    btreeMapDecode u8Codec u8Codec ⟨[3, 1, 10, 1, 20, 2, 30], 10, 10⟩ =
      .ok [(1, 20), (2, 30)] ⟨[], 10, 10⟩ ∧
    ([1, 2] : List Nat).length < 3 ∧
    ([((1 : Nat), (20 : Nat)), (2, 30)] : List (Nat × Nat)).length < 3 := by
  refine ⟨?_, ?_, setFromList_length xs, mapFromList_length ps,
    by decide, by decide, by decide, by decide⟩
  · have hsl : decode_slice_len ⟨encode_slice_len xs.length ++
        (xs.map c.encBytes).flatten ++ rest, b, m⟩ =
        .ok xs.length ⟨(xs.map c.encBytes).flatten ++ rest, b, m⟩ := by
      simp [encode_slice_len, decode_slice_len]
    have hcl : claim_container_read c.size xs.length
        ⟨(xs.map c.encBytes).flatten ++ rest, b, m⟩ =
        .ok () ⟨(xs.map c.encBytes).flatten ++ rest,
          b - xs.length * c.size, m⟩ := by
      simp [claim_container_read, hb]
    rw [btreeSetDecode]
    simp only [hsl, hcl]
    rw [btreeSetLoop_roundtrip c Hc xs rest (b - xs.length * c.size) m []]
    simp [setFromList, Nat.sub_add_cancel hb]
  · have hsl : decode_slice_len ⟨encode_slice_len ps.length ++
        (ps.map (fun p => ck.encBytes p.1 ++ cv.encBytes p.2)).flatten
        ++ rest, b, m⟩ =
        .ok ps.length ⟨(ps.map
          (fun p => ck.encBytes p.1 ++ cv.encBytes p.2)).flatten ++ rest,
          b, m⟩ := by
      simp [encode_slice_len, decode_slice_len]
    have hcl : claim_container_read (ck.size + cv.size) ps.length
        ⟨(ps.map (fun p => ck.encBytes p.1 ++ cv.encBytes p.2)).flatten
          ++ rest, b, m⟩ =
        .ok () ⟨(ps.map
          (fun p => ck.encBytes p.1 ++ cv.encBytes p.2)).flatten ++ rest,
          b - ps.length * (ck.size + cv.size), m⟩ := by
      simp [claim_container_read, hp]
    rw [btreeMapDecode]
    simp only [hsl, hcl]
    rw [btreeMapLoop_roundtrip ck cv Hk Hv ps rest
      (b - ps.length * (ck.size + cv.size)) m []]
    simp [mapFromList, Nat.sub_add_cancel hp]

/-- Witness for C10: the encoded input `[3, 1, 1, 2]` (count 3, element 1
twice) decodes without error to the two-element set `{1, 2}`. -/
theorem btree_decode_duplicates_witness :
    btreeSetDecode u8Codec ⟨[3, 1, 1, 2], 10, 10⟩ =
      .ok (setFromList [1, 1, 2]) ⟨[], 10, 10⟩ :=
  (btree_decode_duplicates u8Codec u8Codec u8Codec
    (fun a input b m => rfl) (fun a input b m => rfl)
    (fun a input b m => rfl) [1, 1, 2] [(1, 10), (1, 20), (2, 30)] []
    10 10 (by decide) (by decide)).1

end Bincode
